import Mathlib

/-!
Verification development for the github-uploader-buildout repository.

The repository scans a directory tree for project roots (scanner.py),
classifies each project and extracts a description, sanitizes the folder
name into a repository name (upload_to_github.py), stamps a donation
section into each README (readme_generator.py), and pushes each project
to a remote host with a bounded retry loop (github_api.py).

The embedding below translates the relevant Python functions into Lean.
String-processing functions work on `List Char` (Python `str` operations
are modelled character by character); bounded loops are translated with
an explicit fuel argument equal to the bound the source loop obeys, so
that every definition is structurally recursive and executable.
-/

set_option maxHeartbeats 1000000
set_option maxRecDepth 4096

namespace Uploader

/-- Python `str.isalnum` modelled on ASCII characters (the source only
ever feeds file-system names; the Unicode extension is irrelevant to the
claims, which quantify over the modelled alphabet). -/
def pyIsAlnum (c : Char) : Bool := c.isAlphanum

/-- Characters kept verbatim by `sanitize_repo_name`
(upload_to_github.py line 87): alphanumerics, hyphen, underscore, dot. -/
def keepChar (c : Char) : Bool := pyIsAlnum c || c = '-' || c = '_' || c = '.'

/-- Characters mapped to a hyphen by `sanitize_repo_name`
(upload_to_github.py line 89): space and both path separators. -/
def dashChar (c : Char) : Bool := c = ' ' || c = '/' || c = '\\'

/-- The character loop of `sanitize_repo_name` (upload_to_github.py
lines 85-90): keep, map to hyphen, or drop each character. -/
def charMapL : List Char → List Char
  | [] => []
  | c :: cs =>
      (if keepChar c then [c] else if dashChar c then ['-'] else []) ++ charMapL cs

/-- Membership in the strip set of `sanitized.strip("-.")`
(upload_to_github.py line 92). -/
def stripSetChar (c : Char) : Bool := c = '-' || c = '.'

/-- Python `str.strip(chars)`: remove every leading and trailing
character satisfying `p`. -/
def stripBothL (p : Char → Bool) (l : List Char) : List Char :=
  ((l.dropWhile p).reverse.dropWhile p).reverse

/-- Python `"--" in sanitized` (upload_to_github.py line 94). -/
def hasDoubleDash : List Char → Bool
  | c :: d :: cs => (c = '-' && d = '-') || hasDoubleDash (d :: cs)
  | _ => false

/-- One pass of Python `sanitized.replace("--", "-")`: replace
non-overlapping occurrences left to right (upload_to_github.py line 95). -/
def replaceDouble : List Char → List Char
  | c :: d :: cs =>
      if c = '-' && d = '-' then '-' :: replaceDouble cs
      else c :: replaceDouble (d :: cs)
  | l => l

/-- The `while "--" in sanitized` loop of upload_to_github.py lines
94-95.  Each replacement pass strictly shortens the list, so `l.length`
passes of fuel are enough for the loop to reach its fixed point; the
fuel argument only makes the source loop structurally recursive. -/
def collapseFuel : Nat → List Char → List Char
  | 0, l => l
  | n + 1, l => if hasDoubleDash l then collapseFuel n (replaceDouble l) else l

/-- Embeds `sanitize_repo_name` of upload_to_github.py lines 80-96, on the
character list of the input. -/
def sanitizeL (l : List Char) : List Char :=
  let kept := charMapL l
  let stripped := stripBothL stripSetChar kept
  let collapsed := collapseFuel stripped.length stripped
  if collapsed.isEmpty then "unnamed-project".toList else collapsed

/-- Embeds `sanitize_repo_name` (upload_to_github.py lines 80-96). -/
def sanitize_repo_name (s : String) : String := String.mk (sanitizeL s.toList)

/-! ### Common Python string helpers -/

/-- Python whitespace characters stripped by `str.strip()` (ASCII). -/
def pyWsChar (c : Char) : Bool :=
  c = ' ' || c = '\t' || c = '\n' || c = '\r' || c = '\x0b' || c = '\x0c'

/-- Python `str.strip()` on a character list. -/
def pyStripL (l : List Char) : List Char := stripBothL pyWsChar l

/-- Python `str.rstrip()` on a character list. -/
def pyRstripL (l : List Char) : List Char := (l.reverse.dropWhile pyWsChar).reverse

/-- Python `content.split("\n")` on a character list. -/
def splitLinesL : List Char → List (List Char)
  | [] => [[]]
  | c :: cs =>
    match splitLinesL cs with
    | [] => [[c]]
    | h :: t => if c = '\n' then [] :: h :: t else (c :: h) :: t

/-- Python `line.split("=", 1)[1]`: the part after the first `=`, or
`none` when the line holds no `=` (in which case the indexing `[1]`
raises `IndexError` in the source). -/
def splitAfterEq : List Char → Option (List Char)
  | [] => none
  | c :: cs => if c = '=' then some cs else splitAfterEq cs

/-! ### scanner.py: classification and description extraction -/

/-- JSON values, modelling the result of Python `json.load`
(the stdlib parser itself is an external collaborator; a file entry
stores the parse result, `none` standing for a read or parse error). -/
inductive Json where
  | str (s : String)
  | num (n : Int)
  | bool (b : Bool)
  | null
  | arr (xs : List Json)
  | obj (fields : List (String × Json))

/-- Python truthiness of a JSON value (`if data.get("description"):`). -/
def jsonTruthy : Json → Bool
  | .str s => !s.isEmpty
  | .num n => n != 0
  | .bool b => b
  | .null => false
  | .arr xs => !xs.isEmpty
  | .obj fs => !fs.isEmpty

/-- Rendering of the JSON value the source returns as a description
(the source returns the Python object itself; only the string case is
ever string-typed downstream, the other renderings are stand-ins). -/
def jsonToStr : Json → String
  | .str s => s
  | .num n => toString n
  | .bool true => "True"
  | .bool false => "False"
  | .null => "None"
  | .arr _ => "[...]"
  | .obj _ => "\x7bobject\x7d"

/-- Python `data.get(key)` on a parsed JSON object. -/
def jsonGetField (fields : List (String × Json)) (key : String) : Option Json :=
  match fields.find? (fun kv => kv.1 == key) with
  | some kv => some kv.2
  | none => none

/-- A non-directory entry of a directory: its name, the result of
reading it as text (`none`: the read raises), and the result of
`json.load` on it (`none`: the read or the parse raises). -/
structure FileEntry where
  name : String
  content : Option String
  jsonVal : Option Json

/-- Result of listing a directory (scanner.py lines 201-209):
either the entries are readable, or `PermissionError`, or `OSError`. -/
inductive ReadResult where
  | ok
  | permissionError
  | osError

/-- A directory tree: base name, traversal path (`str(directory)`),
resolved canonical path (`str(directory.resolve())`), listing outcome,
file entries and subdirectories.  Symlinked subtrees are modelled by
distinct `Dir` nodes sharing the same `canon`. -/
inductive Dir where
  | mk (name path canon : String) (readState : ReadResult)
      (files : List FileEntry) (subdirs : List Dir)

def Dir.name : Dir → String
  | .mk n _ _ _ _ _ => n

def Dir.path : Dir → String
  | .mk _ p _ _ _ _ => p

def Dir.canon : Dir → String
  | .mk _ _ c _ _ _ => c

def Dir.readState : Dir → ReadResult
  | .mk _ _ _ r _ _ => r

def Dir.files : Dir → List FileEntry
  | .mk _ _ _ _ f _ => f

def Dir.subdirs : Dir → List Dir
  | .mk _ _ _ _ _ s => s

/-- scanner.py lines 21-36. -/
def PROJECT_MARKERS : List String :=
  [".git", "package.json", "requirements.txt", "setup.py", "pyproject.toml",
   "Cargo.toml", "go.mod", "Makefile", "CMakeLists.txt", "pom.xml",
   "build.gradle", ".claude", "claude.json", ".claudeignore"]

/-- scanner.py lines 39-60. -/
def SKIP_DIRS : List String :=
  ["node_modules", ".git", "__pycache__", ".venv", "venv", "env", ".env",
   "dist", "build", ".next", ".nuxt", "target", ".cache", ".npm", ".yarn",
   ".pnpm-store", "$RECYCLE.BIN", "System Volume Information", "Recovery",
   ".Trash-1000"]

/-- scanner.py lines 63-69. -/
def CLAUDE_INDICATORS : List String :=
  [".claude", "claude.json", ".claudeignore", "CLAUDE.md", ".claude.toml"]

/-- The names of the immediate children of a directory;
`(project_path / x).exists()` is modelled as membership here. -/
def entryNames (d : Dir) : List String :=
  d.files.map (fun fe => fe.name) ++ d.subdirs.map Dir.name

/-- Embeds `is_claude_project` (scanner.py lines 72-78). -/
def is_claude_project (d : Dir) : Bool :=
  CLAUDE_INDICATORS.any (fun i => (entryNames d).contains i)

/-- The ordered check table of `detect_project_type`
(scanner.py lines 83-99). -/
def typeChecks : List (String × String) :=
  [("package.json", "Node.js/JavaScript"), ("tsconfig.json", "TypeScript"),
   ("requirements.txt", "Python"), ("setup.py", "Python"),
   ("pyproject.toml", "Python"), ("Cargo.toml", "Rust"), ("go.mod", "Go"),
   ("pom.xml", "Java (Maven)"), ("build.gradle", "Java (Gradle)"),
   ("CMakeLists.txt", "C/C++ (CMake)"), ("Makefile", "C/C++ (Make)"),
   ("Gemfile", "Ruby"), ("composer.json", "PHP"),
   ("pubspec.yaml", "Dart/Flutter"), ("*.sln", "C#/.NET")]

/-- The loop of `detect_project_type` (scanner.py lines 100-106); a
`*`-pattern is a glob over the immediate children, i.e. a suffix test. -/
def detectTypeGo (names : List String) : List (String × String) → String
  | [] => "Unknown"
  | (fname, ptype) :: rest =>
    if fname.toList.head? = some '*' then
      if names.any (fun n => (fname.toList.drop 1).isSuffixOf n.toList) then ptype
      else detectTypeGo names rest
    else if names.contains fname then ptype
    else detectTypeGo names rest

/-- Embeds `detect_project_type` (scanner.py lines 81-106). -/
def detect_project_type (d : Dir) : String := detectTypeGo (entryNames d) typeChecks

/-- Source 1 of `get_project_description` (scanner.py lines 112-121):
the `description` field of a parsed `package.json`, returned when
truthy; any read or parse error yields nothing. -/
def pkgDescStep (d : Dir) : Option String :=
  match d.files.find? (fun fe => fe.name == "package.json") with
  | none => none
  | some fe =>
    match fe.jsonVal with
    | some (Json.obj fields) =>
      match jsonGetField fields "description" with
      | some v => if jsonTruthy v then some (jsonToStr v) else none
      | none => none
    | _ => none

/-- The line loop of the pyproject source (scanner.py lines 129-133):
a stripped line starting with `description` is split on the first `=`;
a matching line without `=` raises `IndexError`, which aborts the whole
source (the surrounding `except` swallows it). -/
def pyprojectLines : List (List Char) → Option String
  | [] => none
  | line :: rest =>
    if "description".toList.isPrefixOf (pyStripL line) then
      match splitAfterEq line with
      | none => none
      | some afterEq =>
        let desc := stripBothL (fun c => c = '\'')
          (stripBothL (fun c => c = '"') (pyStripL afterEq))
        if desc.isEmpty then pyprojectLines rest else some (String.mk desc)
    else pyprojectLines rest

/-- Source 2 of `get_project_description` (scanner.py lines 124-135). -/
def pyprojectStep (d : Dir) : Option String :=
  match d.files.find? (fun fe => fe.name == "pyproject.toml") with
  | none => none
  | some fe =>
    match fe.content with
    | none => none
    | some content => pyprojectLines (splitLinesL content.toList)

/-- Embeds `stripped and not stripped.startswith("#")` (scanner.py line 147). -/
def readmeGoodLine (line : List Char) : Bool :=
  !(pyStripL line).isEmpty && !((pyStripL line).head? == some '#')

/-- Embeds `README.md`, `README.txt`, `README`, `readme.md`
(scanner.py line 138). -/
def README_NAMES : List String := ["README.md", "README.txt", "README", "readme.md"]

/-- Source 3 of `get_project_description` (scanner.py lines 138-150):
for each candidate README name in order, the first non-empty non-heading
line among `lines[1:6]`, stripped and truncated to 200 characters; an
unreadable or unproductive candidate falls through to the next name. -/
def readmeGo (files : List FileEntry) : List String → Option String
  | [] => none
  | n :: ns =>
    match files.find? (fun fe => fe.name == n) with
    | none => readmeGo files ns
    | some fe =>
      match fe.content with
      | none => readmeGo files ns
      | some content =>
        match (((splitLinesL content.toList).drop 1).take 5).find? readmeGoodLine with
        | some line => some (String.mk ((pyStripL line).take 200))
        | none => readmeGo files ns

/-- Source 3 of `get_project_description`, applied to a directory. -/
def readmeStep (d : Dir) : Option String := readmeGo d.files README_NAMES

/-- Embeds `get_project_description` (scanner.py lines 109-152): the three
sources tried in order, first producing source wins, else `""`. -/
def get_project_description (d : Dir) : String :=
  match pkgDescStep d with
  | some s => s
  | none =>
    match pyprojectStep d with
    | some s => s
    | none =>
      match readmeStep d with
      | some s => s
      | none => ""

/-! ### scanner.py: the directory scan -/

/-- The dictionary appended by `_scan` (scanner.py lines 225-233),
plus the `canon` ghost field recording `str(directory.resolve())`, the
key under which the record was deduplicated. -/
structure ProjectInfo where
  name : String
  path : String
  type : String
  description : String
  is_claude : Bool
  has_git : Bool
  markers_found : List String
  canon : String
  deriving DecidableEq

/-- The mutable state threaded through `_scan` (scanner.py
lines 182-186): found projects, seen canonical paths, counters. -/
structure ScanState where
  projects : List ProjectInfo
  seen : List String
  dirsScanned : Nat
  dirsSkipped : Nat
  permissionErrors : Nat
  deriving DecidableEq

def initState : ScanState := ⟨[], [], 0, 0, 0⟩

/-- The record built at scanner.py lines 225-233. -/
def mkProjectInfo (d : Dir) (markersFound : List String) (isCl : Bool) : ProjectInfo :=
  { name := d.name, path := d.path, type := detect_project_type d,
    description := get_project_description d, is_claude := isCl,
    has_git := (entryNames d).contains ".git", markers_found := markersFound,
    canon := d.canon }

/-- Embeds `_scan` (scanner.py lines 188-244).  The recursion of the source is
bounded by `maxDepth` (the `depth > max_depth` guard); the explicit fuel
argument only makes that bounded recursion structural, and
`scan_directory` supplies fuel `maxDepth + 2`, which the guard keeps
from ever reaching 0. -/
def scanStep (maxDepth : Nat) (claudeOnly : Bool) : Nat → Dir → Nat → ScanState → ScanState
  | 0, _, _, st => st
  | fuel + 1, d, depth, st =>
    if depth > maxDepth then st
    else if SKIP_DIRS.contains d.name then { st with dirsSkipped := st.dirsSkipped + 1 }
    else
      let st1 := { st with dirsScanned := st.dirsScanned + 1 }
      match d.readState with
      | .permissionError => { st1 with permissionErrors := st1.permissionErrors + 1 }
      | .osError => st1
      | .ok =>
        let names := entryNames d
        let markersFound := PROJECT_MARKERS.filter (fun m => names.contains m)
        if !markersFound.isEmpty then
          if st1.seen.contains d.canon then st1
          else
            let st2 := { st1 with seen := d.canon :: st1.seen }
            let isCl := is_claude_project d
            if claudeOnly && !isCl then st2
            else { st2 with projects := st2.projects ++ [mkProjectInfo d markersFound isCl] }
        else
          d.subdirs.foldl
            (fun acc c =>
              if SKIP_DIRS.contains c.name then acc
              else scanStep maxDepth claudeOnly fuel c (depth + 1) acc)
            st1

/-- The root argument of `scan_directory`: a missing path, a path that
exists but is not a directory, or a directory tree. -/
inductive RootArg where
  | missing
  | notDir
  | dir (d : Dir)

/-- Embeds `scan_directory` (scanner.py lines 155-258): a missing or
non-directory root prints an error and returns the empty list;
otherwise `_scan(root, 0)` runs and the collected projects are
returned. -/
def scan_directory (root : RootArg) (maxDepth : Nat) (claudeOnly : Bool) : List ProjectInfo :=
  match root with
  | .missing => []
  | .notDir => []
  | .dir d => (scanStep maxDepth claudeOnly (maxDepth + 2) d 0 initState).projects

/-! ### readme_generator.py: the donation section stamp -/

/-- Python `paypal_email.split("@")[0]`
(readme_generator.py line 147). -/
def takeUntilAt : List Char → List Char
  | [] => []
  | c :: cs => if c = '@' then [] else c :: takeUntilAt cs

/-- Embeds `_build_donation_section` (readme_generator.py lines 144-160). -/
def build_donation_section (email : String) : String :=
  let username := String.mk (takeUntilAt email.toList)
  "\n---\n\n## Support This Project\n\nIf you find this project useful, consider buying me a coffee! Your support helps me keep building and sharing open-source tools.\n\n[![Donate via PayPal](https://img.shields.io/badge/Donate-PayPal-blue.svg?logo=paypal)](https://www.paypal.me/"
    ++ username ++ ")\n\n**PayPal:** [" ++ email ++ "](https://paypal.me/"
    ++ username
    ++ ")\n\nEvery donation, no matter how small, is greatly appreciated and motivates continued development. Thank you!"

/-- The default attribution contact
(readme_generator.py line 163, upload_to_github.py line 147). -/
def DEFAULT_PAYPAL : String := "gankstapony@hotmail.com"

/-- The heading locating the donation section
(readme_generator.py line 182). -/
def headingL : List Char := "## Support This Project".toList

/-- Python substring search: `findSplit pat l = some (before, rest)`
when `l = before ++ pat ++ rest` at the first occurrence of `pat`
(this is `pat in l` together with `l.split(pat)[0]` and what follows). -/
def findSplit (pat : List Char) : List Char → Option (List Char × List Char)
  | [] => if pat.isEmpty then some ([], []) else none
  | c :: cs =>
    if pat.isPrefixOf (c :: cs) then some ([], (c :: cs).drop pat.length)
    else
      match findSplit pat cs with
      | some (b, a) => some (c :: b, a)
      | none => none

/-- Number of positions of `l` where `pat` occurs as a substring
(the count of occurrences; used to state "exactly one section"). -/
def countOcc (pat : List Char) : List Char → Nat
  | [] => 0
  | c :: cs => (if pat.isPrefixOf (c :: cs) then 1 else 0) + countOcc pat cs

/-- Embeds `update_existing_readme` (readme_generator.py lines 163-192) as a
pure function of the file content: if the heading occurs, everything
from the first occurrence on is replaced by the fresh donation section
(the part before it is kept, right-stripped); otherwise the section is
appended to the right-stripped content. -/
def update_existing_readmeL (content : List Char) (email : String) : List Char :=
  let donation := (build_donation_section email).toList
  match findSplit headingL content with
  | some (before, _) => pyRstripL before ++ '\n' :: (donation ++ ['\n'])
  | none => pyRstripL content ++ '\n' :: (donation ++ ['\n'])

/-- Embeds `update_existing_readme` on strings. -/
def update_existing_readme (content : String) (email : String) : String :=
  String.mk (update_existing_readmeL content.toList email)

/-- A README with a further section after the donation section. -/
def trailingContent : List Char :=
  "# T\n\n## Support This Project\n\nold text\n\n## Usage\nrun it\n".toList

/-- Finds the first `=` or `:` of a line and returns what follows. -/
def findFirstSep : List Char → Option (List Char)
  | [] => none
  | c :: cs => if c = '=' ∨ c = ':' then some cs else findFirstSep cs

/-- Modelled from the spec: claim C6 states the value of a matching
build-configuration line is "whatever follows the first `=` or `:` with
surrounding quotes stripped" — this definition follows those words, for
comparison with `pyprojectLines`, which the source code bases on `=`
alone. -/
def claimConfigValue (line : String) : String :=
  match findFirstSep line.toList with
  | some rest => String.mk (stripBothL (fun c => c = '\'')
      (stripBothL (fun c => c = '"') (pyStripL rest)))
  | none => ""

/-! ### github_api.py and upload_to_github.py: the publish workflow -/

/-- Observable side effects of the publish path: remote-host API calls,
filesystem writes, git subprocess invocations and retry sleeps. -/
inductive Effect where
  | hostExistsQuery (repo : String)
  | hostCreate (repo : String) (description : String) (priv : Bool)
  | fsWrite (path : String)
  | gitRun (args : List String)
  | sleep (seconds : Nat)
  deriving DecidableEq

/-- The behavior of the local working copy as observed by
`git_init_and_push`: whether `.git` exists, the stripped stdout of
`git branch --show-current`, whether `.gitignore` exists, the stripped
stdout of `git status --porcelain`, the configured remote URL (`none`
when `git remote get-url origin` fails), and the success of each
numbered push attempt. -/
structure VcsEnv where
  hasGitDir : Bool
  currentBranch : String
  hasGitignore : Bool
  statusOut : String
  remoteGetUrl : Option String
  push : Nat → Bool

/-- The push retry loop of `git_init_and_push` (github_api.py lines
285-301): `for attempt in range(4)` returning on the first success and
sleeping `2 ** (attempt + 1)` seconds after each failed attempt except
the last.  The first argument counts the loop iterations left (4 at
entry) so the source loop is structurally recursive; the second is the
current `attempt` index. -/
def pushTraceAux (branch : String) (push : Nat → Bool) : Nat → Nat → Bool × List Effect
  | 0, _ => (false, [])
  | rem + 1, attempt =>
    let eff := Effect.gitRun ["push", "-u", "origin", branch]
    if push attempt then (true, [eff])
    else if attempt < 3 then
      let r := pushTraceAux branch push rem (attempt + 1)
      (r.1, eff :: Effect.sleep (2 ^ (attempt + 1)) :: r.2)
    else (false, [eff])

/-- The push phase of `git_init_and_push`, entered at attempt 0 with
loop bound `range(4)`. -/
def git_push_retry (branch : String) (push : Nat → Bool) : Bool × List Effect :=
  pushTraceAux branch push 4 0

/-- Embeds `git_init_and_push` (github_api.py lines 199-301): init or branch
switch, default `.gitignore` creation, stage, conditional commit,
remote add or update, then the push retry loop; returns whether a push
attempt succeeded, together with the trace of effects. -/
def git_init_and_push (path remoteUrl branch : String) (v : VcsEnv) : Bool × List Effect :=
  let initE : List Effect :=
    if !v.hasGitDir then
      [.gitRun ["init"], .gitRun ["checkout", "-b", branch]]
    else
      [.gitRun ["branch", "--show-current"]] ++
        (if v.currentBranch ≠ "" ∧ v.currentBranch ≠ branch then
          [.gitRun ["checkout", "-b", branch]]
        else [])
  let gitignoreE : List Effect :=
    if !v.hasGitignore then [.fsWrite (path ++ "/.gitignore")] else []
  let stageE : List Effect := [.gitRun ["add", "-A"], .gitRun ["status", "--porcelain"]]
  let commitE : List Effect :=
    if v.statusOut ≠ "" then
      [.gitRun ["commit", "-m", "Initial commit - uploaded via github-uploader-buildout"]]
    else []
  let remoteE : List Effect :=
    [.gitRun ["remote", "get-url", "origin"]] ++
      (match v.remoteGetUrl with
       | none => [.gitRun ["remote", "add", "origin", remoteUrl]]
       | some old =>
          if old ≠ remoteUrl then [.gitRun ["remote", "set-url", "origin", remoteUrl]]
          else [])
  let pr := git_push_retry branch v.push
  (pr.1, initE ++ gitignoreE ++ stageE ++ commitE ++ remoteE ++ pr.2)

/-- The per-project outcome of the tally (`results["success"]` and
`results["failed"]` of upload_to_github.py line 292). -/
inductive Outcome where
  | success
  | failed
  deriving DecidableEq

/-- One project as seen by the body of the processing loop
(upload_to_github.py lines 294-360): the record fields it uses plus the
behavior of the host API, the README step and git. -/
structure PEnv where
  name : String
  path : String
  description : String
  existsResult : Except String Bool
  createResult : Except String Unit
  readmeResult : Except String Unit
  vcs : VcsEnv

/-- The loop body of `main` for one project (upload_to_github.py lines
294-360): dry-run short-circuits with success and no effects; otherwise
repo existence is checked, the repo is created when absent, the README
is stamped and `git_init_and_push` decides the outcome; any exception
raised by a host or filesystem step is caught and yields `failed`. -/
def processProject (dryRun : Bool) (priv : Bool) (branch username : String)
    (env : PEnv) : Outcome × List Effect :=
  let rname := sanitize_repo_name env.name
  if dryRun then (.success, [])
  else
    match env.existsResult with
    | .error _ => (.failed, [.hostExistsQuery rname])
    | .ok repoExists =>
      let e1 : List Effect := [.hostExistsQuery rname]
      let desc := String.mk (env.description.toList.take 200)
      let created : Option (List Effect) :=
        if repoExists then some e1
        else
          match env.createResult with
          | .error _ => none
          | .ok _ => some (e1 ++ [.hostCreate rname desc priv])
      match created with
      | none => (.failed, e1 ++ [.hostCreate rname desc priv])
      | some es =>
        match env.readmeResult with
        | .error _ => (.failed, es ++ [.fsWrite (env.path ++ "/README.md")])
        | .ok _ =>
          let remote := "https://github.com/" ++ username ++ "/" ++ rname ++ ".git"
          let gr := git_init_and_push env.path remote branch env.vcs
          (if gr.1 then .success else .failed,
            es ++ [.fsWrite (env.path ++ "/README.md")] ++ gr.2)

/-- The tally (upload_to_github.py line 292). -/
structure RunResults where
  success : List String
  skipped : List String
  failed : List String
  deriving DecidableEq

/-- The project loop of `main` (upload_to_github.py lines 294-360):
every project is processed and appended to the success or failed list;
no failure stops the loop. -/
def processAll (dryRun priv : Bool) (branch username : String) :
    List PEnv → RunResults → RunResults
  | [], acc => acc
  | env :: rest, acc =>
    let out := (processProject dryRun priv branch username env).1
    let nm := sanitize_repo_name env.name
    let acc2 := match out with
      | .success => { acc with success := acc.success ++ [nm] }
      | .failed => { acc with failed := acc.failed ++ [nm] }
    processAll dryRun priv branch username rest acc2

/-- The external behaviors assigned to a discovered project. -/
structure Behav where
  existsResult : Except String Bool
  createResult : Except String Unit
  readmeResult : Except String Unit
  vcs : VcsEnv

def mkPEnv (p : ProjectInfo) (b : Behav) : PEnv :=
  { name := p.name, path := p.path, description := p.description,
    existsResult := b.existsResult, createResult := b.createResult,
    readmeResult := b.readmeResult, vcs := b.vcs }

/-- Pairs each scanned project with the behavior of its remote and
local collaborators. -/
def mkEnvs (ps : List ProjectInfo) (behav : Nat → Behav) : List PEnv :=
  ps.enum.map (fun ip => mkPEnv ip.2 (behav ip.1))

/-- How a run of `main` ends (upload_to_github.py lines 121-402). -/
inductive MainResult where
  | fatalBadPath
  | noProjects
  | userAborted
  | fatalAuth
  | completed (r : RunResults)
  deriving DecidableEq

/-- Embeds `main` (upload_to_github.py lines 121-402): a missing path (after
the alternative spellings also fail) exits fatally before scanning; an
existing non-directory path passes the `os.path.exists` pre-check but
the scan returns nothing, so the run exits with "No projects found";
otherwise the scan runs, an empty result exits, the confirmation gate
may abort, authentication happens only outside dry-run and its failure
is fatal, and the project loop produces the final tally. -/
def mainRun (root : RootArg) (maxDepth : Nat)
    (claudeOnly dryRun yes confirmResponse : Bool)
    (auth : Except String String) (priv : Bool) (branch : String)
    (behav : Nat → Behav) : MainResult :=
  match root with
  | .missing => .fatalBadPath
  | .notDir => .noProjects
  | .dir d =>
    let projects := scan_directory (.dir d) maxDepth claudeOnly
    if projects.isEmpty then .noProjects
    else if !yes && !dryRun && !confirmResponse then .userAborted
    else if dryRun then
      .completed (processAll true priv branch "" (mkEnvs projects behav) ⟨[], [], []⟩)
    else
      match auth with
      | .error _ => .fatalAuth
      | .ok username =>
        .completed (processAll false priv branch username
          (mkEnvs projects behav) ⟨[], [], []⟩)

/-! ### Concrete example trees -/

/-- A marker file entry with unreadable content (only its name matters
for detection). -/
def exampleFile (n : String) : FileEntry := ⟨n, none, none⟩

/-- A project directory sitting at depth 1 under a plain root. -/
def depthChild : Dir := .mk "p" "r/p" "real/p" .ok [exampleFile "package.json"] []

def depthTree : Dir := .mk "r" "r" "real/r" .ok [] [depthChild]

/-- A root whose two children are distinct traversal edges resolving to
the same canonical path (a symlinked subtree). -/
def symTree : Dir :=
  .mk "r" "r" "real/r" .ok []
    [.mk "a" "r/a" "shared" .ok [exampleFile "go.mod"] [],
     .mk "b" "r/b" "shared" .ok [exampleFile "go.mod"] []]

/-- A root directory that itself carries a project marker. -/
def rootMarked : Dir := .mk "top" "top" "real/top" .ok [exampleFile "Cargo.toml"] []

/-- A project whose `pyproject.toml` declares its description with a
colon separator instead of `=`. -/
def colonDir : Dir :=
  .mk "proj" "proj" "real/proj" .ok
    [⟨"pyproject.toml", some "description: hello tool\n", none⟩] []

/-- A project whose `package.json` parses to an object with a
`description` field. -/
def jsonDir : Dir :=
  .mk "j" "j" "real/j" .ok
    [⟨"package.json", none, some (Json.obj [("description", Json.str "A tool")])⟩] []

/-- A push behavior that always fails. -/
def pushNever : Nat → Bool := fun _ => false

/-- A push behavior whose third attempt (index 2) succeeds. -/
def pushThird : Nat → Bool := fun i => decide (i = 2)

/-- A working copy whose push always fails. -/
def vcsAllFail : VcsEnv := ⟨true, "main", true, "", some "r", pushNever⟩

/-- A working copy whose third push attempt succeeds. -/
def vcsThird : VcsEnv := ⟨true, "main", true, "", some "r", pushThird⟩

/-- A project whose host steps succeed and whose push always fails. -/
def envFail : PEnv := ⟨"p", "/p", "", .ok true, .ok (), .ok (), vcsAllFail⟩

/-- A project whose host steps succeed and whose third push succeeds. -/
def envThird : PEnv := ⟨"p", "/p", "", .ok true, .ok (), .ok (), vcsThird⟩

/-- A benign behavior assignment: repos exist, README steps succeed,
pushes fail (used to exercise per-project failure recording). -/
def behav0 : Nat → Behav := fun _ => ⟨.ok true, .ok (), .ok (), vcsAllFail⟩

/-- The deduplication invariant of `_scan`: the collected records have
pairwise distinct canonical paths, each recorded in `seen`. -/
def seenInv (st : ScanState) : Prop :=
  st.projects.Pairwise (fun a b => a.canon ≠ b.canon) ∧
  ∀ p ∈ st.projects, p.canon ∈ st.seen

/-! ### Helper lemmas -/

theorem replaceDouble_nil : replaceDouble [] = [] := rfl

theorem replaceDouble_single (c : Char) : replaceDouble [c] = [c] := rfl

theorem replaceDouble_cons_cons (c d : Char) (cs : List Char) :
    replaceDouble (c :: d :: cs) =
      if c = '-' && d = '-' then '-' :: replaceDouble cs
      else c :: replaceDouble (d :: cs) := rfl

theorem hasDoubleDash_nil : hasDoubleDash [] = false := rfl

theorem hasDoubleDash_single (c : Char) : hasDoubleDash [c] = false := rfl

theorem hasDoubleDash_cons_cons (c d : Char) (cs : List Char) :
    hasDoubleDash (c :: d :: cs) = ((c = '-' && d = '-') || hasDoubleDash (d :: cs)) := rfl

theorem collapseFuel_succ (n : Nat) (l : List Char) :
    collapseFuel (n + 1) l =
      if hasDoubleDash l then collapseFuel n (replaceDouble l) else l := rfl

theorem mem_charMapL {l : List Char} {c : Char} (h : c ∈ charMapL l) :
    keepChar c = true := by
  induction l with
  | nil => simp [charMapL] at h
  | cons a as ih =>
    simp only [charMapL, List.mem_append] at h
    rcases h with h | h
    · by_cases hk : keepChar a
      · simp [hk] at h; subst h; exact hk
      · by_cases hd : dashChar a
        · simp [hk, hd] at h; subst h; decide
        · simp [hk, hd] at h
    · exact ih h

theorem charMapL_of_valid {l : List Char} (h : ∀ c ∈ l, keepChar c = true) :
    charMapL l = l := by
  induction l with
  | nil => rfl
  | cons a as ih =>
    have ha := h a (by simp)
    simp [charMapL, ha, ih (fun c hc => h c (List.mem_cons_of_mem _ hc))]

theorem head?_dropWhile_false {p : Char → Bool} {l : List Char} {c : Char}
    (h : (l.dropWhile p).head? = some c) : p c = false := by
  induction l with
  | nil => simp at h
  | cons a as ih =>
    rw [List.dropWhile_cons] at h
    by_cases hp : p a
    · simp only [hp, if_true] at h; exact ih h
    · rw [Bool.not_eq_true] at hp
      simp only [hp, Bool.false_eq_true, if_false, List.head?_cons, Option.some.injEq] at h
      subst h
      exact hp

theorem dropWhile_suffix_decomp (p : Char → Bool) (l : List Char) :
    ∃ s, l = s ++ l.dropWhile p := by
  induction l with
  | nil => exact ⟨[], rfl⟩
  | cons a as ih =>
    rw [List.dropWhile_cons]
    by_cases hp : p a
    · obtain ⟨s, hs⟩ := ih
      exact ⟨a :: s, by simp only [hp, if_true, List.cons_append]; rw [← hs]⟩
    · exact ⟨[], by simp [hp]⟩

theorem mem_stripBothL {p : Char → Bool} {l : List Char} {c : Char}
    (h : c ∈ stripBothL p l) : c ∈ l := by
  unfold stripBothL at h
  rw [List.mem_reverse] at h
  have h2 : c ∈ (l.dropWhile p).reverse := (List.dropWhile_sublist _).subset h
  rw [List.mem_reverse] at h2
  exact (List.dropWhile_sublist _).subset h2

theorem stripBothL_head {p : Char → Bool} {l : List Char} {c : Char}
    (h : (stripBothL p l).head? = some c) : p c = false := by
  unfold stripBothL at h
  rw [List.head?_reverse] at h
  by_cases hnil : ((l.dropWhile p).reverse.dropWhile p) = []
  · rw [hnil] at h; simp at h
  · obtain ⟨s, hs⟩ := dropWhile_suffix_decomp p ((l.dropWhile p).reverse)
    have hwhole : ((l.dropWhile p).reverse).getLast? = some c := by
      rw [hs, List.getLast?_append, h]; rfl
    rw [List.getLast?_reverse] at hwhole
    exact head?_dropWhile_false hwhole

theorem stripBothL_last {p : Char → Bool} {l : List Char} {c : Char}
    (h : (stripBothL p l).getLast? = some c) : p c = false := by
  unfold stripBothL at h
  rw [List.getLast?_reverse] at h
  exact head?_dropWhile_false h

theorem dropWhile_eq_self_of_head {p : Char → Bool} {l : List Char}
    (h : ∀ c, l.head? = some c → p c = false) : l.dropWhile p = l := by
  cases l with
  | nil => rfl
  | cons a as => rw [List.dropWhile_cons, h a rfl]; simp

theorem stripBothL_eq_self {p : Char → Bool} {l : List Char}
    (hh : ∀ c, l.head? = some c → p c = false)
    (hl : ∀ c, l.getLast? = some c → p c = false) : stripBothL p l = l := by
  unfold stripBothL
  rw [dropWhile_eq_self_of_head hh]
  rw [dropWhile_eq_self_of_head (fun c hc => hl c (by rwa [List.head?_reverse] at hc))]
  exact List.reverse_reverse l

theorem replaceDouble_length_le (l : List Char) :
    (replaceDouble l).length ≤ l.length := by
  induction l using replaceDouble.induct with
  | case1 c d cs h ih =>
    rw [replaceDouble_cons_cons, if_pos h]
    simpa using Nat.le_trans ih (by omega)
  | case2 c d cs h ih =>
    rw [replaceDouble_cons_cons, if_neg h]
    simpa using ih
  | case3 l h1 =>
    cases l with
    | nil => simp [replaceDouble_nil]
    | cons a as =>
      cases as with
      | nil => simp [replaceDouble_single]
      | cons b bs => exact absurd rfl (h1 a b bs)

theorem replaceDouble_length_lt :
    ∀ l : List Char, hasDoubleDash l = true → (replaceDouble l).length < l.length := by
  intro l
  induction l using replaceDouble.induct with
  | case1 c d cs hcd ih =>
    intro _
    rw [replaceDouble_cons_cons, if_pos hcd]
    have := replaceDouble_length_le cs
    simp only [List.length_cons]
    omega
  | case2 c d cs hcd ih =>
    intro h
    rw [hasDoubleDash_cons_cons] at h
    have hd : hasDoubleDash (d :: cs) = true := by
      simp only [Bool.or_eq_true] at h
      rcases h with h | h
      · exact absurd h hcd
      · exact h
    rw [replaceDouble_cons_cons, if_neg hcd]
    have := ih hd
    simp only [List.length_cons] at *
    omega
  | case3 l h1 =>
    intro h
    cases l with
    | nil => simp [hasDoubleDash_nil] at h
    | cons a as =>
      cases as with
      | nil => simp [hasDoubleDash_single] at h
      | cons b bs => exact absurd rfl (h1 a b bs)

theorem replaceDouble_ne_nil {l : List Char} (h : l ≠ []) : replaceDouble l ≠ [] := by
  cases l with
  | nil => exact absurd rfl h
  | cons a as =>
    cases as with
    | nil => simp [replaceDouble_single]
    | cons b bs =>
      rw [replaceDouble_cons_cons]
      split <;> simp

theorem mem_replaceDouble : ∀ l : List Char, ∀ c ∈ replaceDouble l, c ∈ l := by
  intro l
  induction l using replaceDouble.induct with
  | case1 a b cs hcd ih =>
    intro c hc
    rw [replaceDouble_cons_cons, if_pos hcd] at hc
    simp only [decide_eq_true_eq, Bool.and_eq_true] at hcd
    obtain ⟨ha, hb⟩ := hcd
    subst ha; subst hb
    rcases List.mem_cons.mp hc with h | h
    · subst h; exact List.mem_cons_self _ _
    · exact List.mem_cons_of_mem _ (List.mem_cons_of_mem _ (ih c h))
  | case2 a b cs hcd ih =>
    intro c hc
    rw [replaceDouble_cons_cons, if_neg hcd] at hc
    rcases List.mem_cons.mp hc with h | h
    · subst h; exact List.mem_cons_self _ _
    · exact List.mem_cons_of_mem _ (ih c h)
  | case3 l h1 =>
    intro c hc
    cases l with
    | nil => exact hc
    | cons a as =>
      cases as with
      | nil => exact hc
      | cons b bs => exact absurd rfl (h1 a b bs)

theorem replaceDouble_head {l : List Char} {c : Char}
    (h : l.head? = some c) (hc : c ≠ '-') : (replaceDouble l).head? = some c := by
  cases l with
  | nil => simp at h
  | cons a as =>
    rw [List.head?_cons, Option.some.injEq] at h
    subst h
    cases as with
    | nil => simp [replaceDouble_single]
    | cons b bs =>
      rw [replaceDouble_cons_cons]
      have hcond : ¬((a = '-' : Bool) && (b = '-' : Bool)) = true := by
        simp [hc]
      rw [if_neg hcond]
      simp

theorem getLast?_cons_of_ne_nil {a : Char} {r : List Char} (h : r ≠ []) :
    (a :: r).getLast? = r.getLast? := by
  cases r with
  | nil => exact absurd rfl h
  | cons b bs => exact List.getLast?_cons_cons

theorem replaceDouble_last :
    ∀ l : List Char, ∀ c : Char, l.getLast? = some c → c ≠ '-' →
      (replaceDouble l).getLast? = some c := by
  intro l
  induction l using replaceDouble.induct with
  | case1 a b cs hcd ih =>
    intro c h hc
    simp only [decide_eq_true_eq, Bool.and_eq_true] at hcd
    obtain ⟨ha, hb⟩ := hcd
    subst ha; subst hb
    cases cs with
    | nil => simp at h; exact absurd h.symm hc
    | cons z zs =>
      rw [List.getLast?_cons_cons, List.getLast?_cons_cons] at h
      rw [replaceDouble_cons_cons, if_pos (by simp)]
      rw [getLast?_cons_of_ne_nil (replaceDouble_ne_nil (by simp))]
      exact ih c h hc
  | case2 a b cs hcd ih =>
    intro c h hc
    rw [List.getLast?_cons_cons] at h
    rw [replaceDouble_cons_cons, if_neg hcd]
    rw [getLast?_cons_of_ne_nil (replaceDouble_ne_nil (by simp))]
    exact ih c h hc
  | case3 l h1 =>
    intro c h hc
    cases l with
    | nil => simp at h
    | cons a as =>
      cases as with
      | nil => simpa [replaceDouble_single] using h
      | cons b bs => exact absurd rfl (h1 a b bs)

theorem mem_collapseFuel : ∀ (n : Nat) (l : List Char), ∀ c ∈ collapseFuel n l, c ∈ l := by
  intro n
  induction n with
  | zero => intro l c hc; exact hc
  | succ n ih =>
    intro l c hc
    rw [collapseFuel_succ] at hc
    split at hc
    · exact mem_replaceDouble l c (ih _ c hc)
    · exact hc

theorem collapseFuel_ne_nil : ∀ (n : Nat) {l : List Char}, l ≠ [] → collapseFuel n l ≠ [] := by
  intro n
  induction n with
  | zero => intro l h; exact h
  | succ n ih =>
    intro l h
    rw [collapseFuel_succ]
    split
    · exact ih (replaceDouble_ne_nil h)
    · exact h

theorem collapseFuel_head :
    ∀ (n : Nat) {l : List Char} {c : Char}, l.head? = some c → c ≠ '-' →
      (collapseFuel n l).head? = some c := by
  intro n
  induction n with
  | zero => intro l c h _; exact h
  | succ n ih =>
    intro l c h hc
    rw [collapseFuel_succ]
    split
    · exact ih (replaceDouble_head h hc) hc
    · exact h

theorem collapseFuel_last :
    ∀ (n : Nat) {l : List Char} {c : Char}, l.getLast? = some c → c ≠ '-' →
      (collapseFuel n l).getLast? = some c := by
  intro n
  induction n with
  | zero => intro l c h _; exact h
  | succ n ih =>
    intro l c h hc
    rw [collapseFuel_succ]
    split
    · exact ih (replaceDouble_last l c h hc) hc
    · exact h

theorem hasDoubleDash_collapseFuel :
    ∀ (n : Nat) (l : List Char), l.length ≤ n → hasDoubleDash (collapseFuel n l) = false := by
  intro n
  induction n with
  | zero =>
    intro l h
    have : l = [] := List.length_eq_zero.mp (Nat.le_zero.mp h)
    subst this; rfl
  | succ n ih =>
    intro l h
    rw [collapseFuel_succ]
    by_cases hd : hasDoubleDash l
    · rw [if_pos hd]
      exact ih _ (by have := replaceDouble_length_lt l hd; omega)
    · rw [if_neg hd]
      simpa using hd

theorem collapseFuel_eq_self {l : List Char} (h : hasDoubleDash l = false) :
    ∀ n, collapseFuel n l = l := by
  intro n
  cases n with
  | zero => rfl
  | succ n => simp [collapseFuel_succ, h]

theorem sanitizeL_idem (l : List Char) : sanitizeL (sanitizeL l) = sanitizeL l := by
  have hs : sanitizeL l =
      if (collapseFuel (stripBothL stripSetChar (charMapL l)).length
            (stripBothL stripSetChar (charMapL l))).isEmpty
      then "unnamed-project".toList
      else collapseFuel (stripBothL stripSetChar (charMapL l)).length
            (stripBothL stripSetChar (charMapL l)) := rfl
  set stripped := stripBothL stripSetChar (charMapL l) with hstr
  set collapsed := collapseFuel stripped.length stripped with hcol
  by_cases hnil : collapsed.isEmpty
  · rw [hs, if_pos hnil]; decide
  · rw [hs, if_neg hnil]
    have hne : collapsed ≠ [] := by
      intro hcontra
      rw [hcontra] at hnil
      exact hnil rfl
    have hsne : stripped ≠ [] := by
      intro hcontra
      apply hne
      rw [hcol, hcontra]
      rfl
    have hvalid : ∀ c ∈ collapsed, keepChar c = true := fun c hc =>
      mem_charMapL (mem_stripBothL (mem_collapseFuel _ _ c hc))
    -- head and last of the collapsed result are outside the strip set
    obtain ⟨s0, hs0⟩ : ∃ s0, stripped.head? = some s0 := by
      cases hh : stripped.head? with
      | none => exact absurd (List.head?_eq_none_iff.mp hh) hsne
      | some x => exact ⟨x, rfl⟩
    obtain ⟨t0, ht0⟩ : ∃ t0, stripped.getLast? = some t0 := by
      cases hh : stripped.getLast? with
      | none => exact absurd (List.getLast?_eq_none_iff.mp hh) hsne
      | some x => exact ⟨x, rfl⟩
    have hs0strip : stripSetChar s0 = false := stripBothL_head (hstr ▸ hs0)
    have ht0strip : stripSetChar t0 = false := stripBothL_last (hstr ▸ ht0)
    have hs0dash : s0 ≠ '-' := by
      intro hcontra; subst hcontra; simp [stripSetChar] at hs0strip
    have ht0dash : t0 ≠ '-' := by
      intro hcontra; subst hcontra; simp [stripSetChar] at ht0strip
    have hchead : collapsed.head? = some s0 := collapseFuel_head _ hs0 hs0dash
    have hclast : collapsed.getLast? = some t0 := collapseFuel_last _ ht0 ht0dash
    have hmap : charMapL collapsed = collapsed := charMapL_of_valid hvalid
    have hstrip2 : stripBothL stripSetChar collapsed = collapsed := by
      apply stripBothL_eq_self
      · intro c hc; rw [hchead, Option.some.injEq] at hc; subst hc; exact hs0strip
      · intro c hc; rw [hclast, Option.some.injEq] at hc; subst hc; exact ht0strip
    have hnd : hasDoubleDash collapsed = false :=
      hasDoubleDash_collapseFuel _ _ (Nat.le_refl _)
    have hcoll2 : collapseFuel collapsed.length collapsed = collapsed :=
      collapseFuel_eq_self hnd _
    show sanitizeL collapsed = collapsed
    unfold sanitizeL
    simp only [hmap, hstrip2, hcoll2]
    rw [if_neg hnil]

theorem contains_iff_mem {α : Type} [BEq α] [LawfulBEq α] {l : List α} {x : α} :
    l.contains x = true ↔ x ∈ l := by
  simp [List.contains, List.elem_iff]

theorem scanStep_deep_id (md : Nat) (co : Bool) (fuel : Nat) (d : Dir) (depth : Nat)
    (st : ScanState) (h : depth > md) : scanStep md co fuel d depth st = st := by
  cases fuel with
  | zero => rfl
  | succ n =>
    rw [scanStep, if_pos h]

theorem scanStep_inv (md : Nat) (co : Bool) :
    ∀ (fuel : Nat) (d : Dir) (depth : Nat) (st : ScanState),
      seenInv st →
      seenInv (scanStep md co fuel d depth st) ∧
      ∀ x ∈ st.seen, x ∈ (scanStep md co fuel d depth st).seen := by
  intro fuel
  induction fuel with
  | zero => intro d depth st h; exact ⟨h, fun x hx => hx⟩
  | succ n ih =>
    intro d depth st h
    rw [scanStep]
    split
    · exact ⟨h, fun x hx => hx⟩
    split
    · exact ⟨h, fun x hx => hx⟩
    split
    · exact ⟨h, fun x hx => hx⟩
    · exact ⟨h, fun x hx => hx⟩
    · simp only []
      split
      · split
        · exact ⟨h, fun x hx => hx⟩
        · next hmarkers hseen =>
          split
          · refine ⟨⟨h.1, fun p hp => List.mem_cons_of_mem _ (h.2 p hp)⟩,
              fun x hx => List.mem_cons_of_mem _ hx⟩
          · refine ⟨⟨?_, ?_⟩, fun x hx => List.mem_cons_of_mem _ hx⟩
            · rw [List.pairwise_append]
              refine ⟨h.1, by simp, ?_⟩
              intro a ha b hb
              simp only [List.mem_singleton] at hb
              subst hb
              intro hcontra
              apply hseen
              rw [contains_iff_mem]
              simp only [mkProjectInfo] at hcontra
              rw [← hcontra]
              exact h.2 a ha
            · intro p hp
              rcases List.mem_append.mp hp with hp | hp
              · exact List.mem_cons_of_mem _ (h.2 p hp)
              · simp only [List.mem_singleton] at hp
                subst hp
                exact List.mem_cons_self _ _
      · have hfold : ∀ (l : List Dir) (acc : ScanState), seenInv acc →
            seenInv (l.foldl
              (fun acc c => if SKIP_DIRS.contains c.name then acc
                else scanStep md co n c (depth + 1) acc) acc) ∧
            ∀ x ∈ acc.seen, x ∈ (l.foldl
              (fun acc c => if SKIP_DIRS.contains c.name then acc
                else scanStep md co n c (depth + 1) acc) acc).seen := by
          intro l
          induction l with
          | nil => intro acc hacc; exact ⟨hacc, fun x hx => hx⟩
          | cons c cs ihl =>
            intro acc hacc
            simp only [List.foldl_cons]
            by_cases hc : SKIP_DIRS.contains c.name
            · rw [if_pos hc]; exact ihl acc hacc
            · rw [if_neg hc]
              obtain ⟨hinv1, hsub1⟩ := ih c (depth + 1) acc hacc
              obtain ⟨hinv2, hsub2⟩ := ihl _ hinv1
              exact ⟨hinv2, fun x hx => hsub2 x (hsub1 x hx)⟩
        exact hfold d.subdirs _ h

theorem scan_md0_core (d : Dir) (co : Bool) (r : ProjectInfo)
    (hr : r ∈ (scanStep 0 co (1 + 1) d 0 initState).projects) :
    r.path = d.path ∧ r.markers_found ≠ [] := by
  have hfold : ∀ (l : List Dir) (acc : ScanState),
      (l.foldl (fun acc c => if SKIP_DIRS.contains c.name then acc
        else scanStep 0 co 1 c (0 + 1) acc) acc) = acc := by
    intro l
    induction l with
    | nil => intro acc; rfl
    | cons c cs ihl =>
      intro acc
      simp only [List.foldl_cons]
      by_cases hc : SKIP_DIRS.contains c.name
      · rw [if_pos hc]; exact ihl acc
      · rw [if_neg hc, scanStep_deep_id 0 co 1 c (0 + 1) acc (by omega)]
        exact ihl acc
  rw [scanStep] at hr
  split at hr
  · simp [initState] at hr
  split at hr
  · simp [initState] at hr
  split at hr
  · simp [initState] at hr
  · simp [initState] at hr
  · simp only [] at hr
    split at hr
    · next hmarkers =>
      split at hr
      · simp [initState] at hr
      · split at hr
        · simp [initState] at hr
        · simp only [initState] at hr
          rw [List.nil_append] at hr
          simp only [List.mem_singleton] at hr
          subst hr
          refine ⟨rfl, ?_⟩
          intro hc
          have : (mkProjectInfo d
              (List.filter (fun m => (entryNames d).contains m) PROJECT_MARKERS)
              (is_claude_project d)).markers_found =
              List.filter (fun m => (entryNames d).contains m) PROJECT_MARKERS := rfl
          rw [this] at hc
          rw [hc] at hmarkers
          simp at hmarkers
    · rw [hfold] at hr
      simp [initState] at hr

theorem pyprojectLines_some_ne_empty :
    ∀ (lines : List (List Char)) (s : String), pyprojectLines lines = some s → s ≠ "" := by
  intro lines
  induction lines with
  | nil => intro s h; simp [pyprojectLines] at h
  | cons line rest ih =>
    intro s h
    rw [pyprojectLines] at h
    split at h
    · split at h
      · exact absurd h (by simp)
      · simp only [] at h
        split at h
        · exact ih s h
        · next hne =>
          simp only [Option.some.injEq] at h
          subst h
          intro hc
          rw [show ("" : String) = String.mk [] from rfl] at hc
          have hdata := congrArg String.data hc
          simp only [] at hdata
          rw [hdata] at hne
          simp at hne
    · exact ih s h

theorem readmeGo_some_spec :
    ∀ (names : List String) (files : List FileEntry) (s : String),
      readmeGo files names = some s → s ≠ "" ∧ s.length ≤ 200 := by
  intro names
  induction names with
  | nil => intro files s h; simp [readmeGo] at h
  | cons n ns ih =>
    intro files s h
    rw [readmeGo] at h
    split at h
    · exact ih files s h
    · split at h
      · exact ih files s h
      · split at h
        · next line hline =>
          simp only [Option.some.injEq] at h
          subst h
          constructor
          · intro hc
            rw [show ("" : String) = String.mk [] from rfl] at hc
            have hc := congrArg String.data hc
            simp only [] at hc
            have hgood := List.find?_some hline
            rw [readmeGoodLine] at hgood
            simp only [Bool.and_eq_true, Bool.not_eq_true'] at hgood
            have : pyStripL line ≠ [] := by
              intro hnil
              rw [hnil] at hgood
              simp at hgood
            rcases List.take_eq_nil_iff.mp hc with h200 | hnil
            · omega
            · exact this hnil
          · have : (String.mk ((pyStripL line).take 200)).length =
                ((pyStripL line).take 200).length := rfl
            rw [this]
            have := List.length_take_le 200 (pyStripL line)
            omega
        · exact ih files s h

theorem isPre_iff : ∀ (p l : List Char), p.isPrefixOf l = true ↔ ∃ t, l = p ++ t := by
  intro p
  induction p with
  | nil =>
    intro l
    constructor
    · intro _; exact ⟨l, rfl⟩
    · intro _; cases l <;> rfl
  | cons a as ih =>
    intro l
    cases l with
    | nil =>
      simp only [List.isPrefixOf, List.nil_eq, List.append_eq_nil]
      constructor
      · intro h; exact absurd h (by simp)
      · rintro ⟨t, ht⟩; exact absurd ht (by simp)
    | cons b bs =>
      simp only [List.isPrefixOf, Bool.and_eq_true, beq_iff_eq]
      constructor
      · rintro ⟨hab, h⟩
        obtain ⟨t, ht⟩ := (ih bs).mp h
        subst hab
        exact ⟨t, by rw [ht, List.cons_append]⟩
      · rintro ⟨t, ht⟩
        injection ht with h1 h2
        exact ⟨h1.symm, (ih bs).mpr ⟨t, h2⟩⟩

theorem isPre_append_extend {p l t : List Char} (h : p.isPrefixOf l = true) :
    p.isPrefixOf (l ++ t) = true := by
  obtain ⟨u, hu⟩ := (isPre_iff p l).mp h
  exact (isPre_iff p (l ++ t)).mpr ⟨u ++ t, by rw [hu, List.append_assoc]⟩

theorem findSplit_decomp {pat : List Char} (hne : pat ≠ []) :
    ∀ (l b a : List Char), findSplit pat l = some (b, a) → l = b ++ pat ++ a := by
  intro l
  induction l with
  | nil =>
    intro b a h
    rw [findSplit] at h
    rw [if_neg (by simpa using hne)] at h
    exact absurd h (by simp)
  | cons c cs ih =>
    intro b a h
    rw [findSplit] at h
    split at h
    · next hpre =>
      simp only [Option.some.injEq, Prod.mk.injEq] at h
      obtain ⟨hb, ha⟩ := h
      subst hb
      obtain ⟨t, ht⟩ := (isPre_iff pat (c :: cs)).mp hpre
      rw [ht] at ha ⊢
      rw [List.drop_left] at ha
      rw [← ha]
      simp
    · split at h
      · next b' a' heq =>
        simp only [Option.some.injEq, Prod.mk.injEq] at h
        obtain ⟨hb, ha⟩ := h
        subst hb; subst ha
        rw [ih b' a' heq]
        simp
      · exact absurd h (by simp)

theorem countOcc_eq_zero_of_findSplit_none {pat : List Char} (_hne : pat ≠ []) :
    ∀ l, findSplit pat l = none → countOcc pat l = 0 := by
  intro l
  induction l with
  | nil => intro _; rfl
  | cons c cs ih =>
    intro h
    rw [findSplit] at h
    split at h
    · exact absurd h (by simp)
    · next hpre =>
      split at h
      · exact absurd h (by simp)
      · next heq =>
        rw [countOcc, if_neg hpre, ih heq]

theorem countOcc_before_eq_zero {pat : List Char} (hne : pat ≠ []) :
    ∀ l b a, findSplit pat l = some (b, a) → countOcc pat b = 0 := by
  intro l
  induction l with
  | nil =>
    intro b a h
    rw [findSplit, if_neg (by simpa using hne)] at h
    exact absurd h (by simp)
  | cons c cs ih =>
    intro b a h
    rw [findSplit] at h
    split at h
    · simp only [Option.some.injEq, Prod.mk.injEq] at h
      rw [← h.1]; rfl
    · next hpre =>
      split at h
      · next b' a' heq =>
        simp only [Option.some.injEq, Prod.mk.injEq] at h
        obtain ⟨hb, ha⟩ := h
        subst hb; subst ha
        have hpre2 : pat.isPrefixOf (c :: b') = false := by
          cases hp2 : pat.isPrefixOf (c :: b') with
          | false => rfl
          | true =>
            exfalso
            apply hpre
            have hdec := findSplit_decomp hne cs b' a' heq
            have hrw : (c :: cs) = (c :: b') ++ (pat ++ a') := by
              rw [hdec]; simp
            rw [hrw]
            exact isPre_append_extend hp2
        rw [countOcc, hpre2, ih b' a' heq]
        simp
      · exact absurd h (by simp)

theorem isPre_through_newline :
    ∀ (pat X rest : List Char), pat.isPrefixOf (X ++ '\n' :: rest) = true →
      pat.isPrefixOf X = true ∨ '\n' ∈ pat := by
  intro pat
  induction pat with
  | nil => intro X rest _; left; cases X <;> rfl
  | cons p ps ih =>
    intro X rest h
    cases X with
    | nil =>
      simp only [List.nil_append, List.isPrefixOf, Bool.and_eq_true, beq_iff_eq] at h
      right
      rw [h.1]
      exact List.mem_cons_self _ _
    | cons x X' =>
      simp only [List.cons_append, List.isPrefixOf, Bool.and_eq_true, beq_iff_eq] at h
      obtain ⟨hpx, hrec⟩ := h
      rcases ih X' rest hrec with hl | hr
      · left
        simp only [List.isPrefixOf, Bool.and_eq_true, beq_iff_eq]
        exact ⟨hpx, hl⟩
      · right; exact List.mem_cons_of_mem _ hr

theorem countOcc_append_left_zero {pat : List Char} :
    ∀ (a b : List Char), countOcc pat (a ++ b) = 0 → countOcc pat a = 0 := by
  intro a
  induction a with
  | nil => intro b _; rfl
  | cons x a' ih =>
    intro b h
    rw [List.cons_append, countOcc] at h
    have h2 : countOcc pat (a' ++ b) = 0 := by omega
    have h1 : (if pat.isPrefixOf (x :: (a' ++ b)) then 1 else 0) = 0 := by omega
    rw [countOcc, ih b h2]
    have hfalse : pat.isPrefixOf (x :: a') = false := by
      cases hp : pat.isPrefixOf (x :: a') with
      | false => rfl
      | true =>
        have hext : pat.isPrefixOf ((x :: a') ++ b) = true := isPre_append_extend hp
        rw [List.cons_append] at hext
        rw [hext] at h1
        simp at h1
    rw [hfalse]
    simp

theorem countOcc_append_newline {pat : List Char} (hne : pat ≠ []) (hnl : '\n' ∉ pat) :
    ∀ (X rest : List Char), countOcc pat X = 0 →
      countOcc pat (X ++ '\n' :: rest) = countOcc pat rest := by
  intro X
  induction X with
  | nil =>
    intro rest _
    rw [List.nil_append, countOcc]
    have hfalse : pat.isPrefixOf ('\n' :: rest) = false := by
      cases hp : pat.isPrefixOf ('\n' :: rest) with
      | false => rfl
      | true =>
        rcases isPre_through_newline pat [] rest (by simpa using hp) with hl | hr
        · cases pat with
          | nil => exact absurd rfl hne
          | cons p ps => simp [List.isPrefixOf] at hl
        · exact absurd hr hnl
    rw [hfalse]
    simp
  | cons x X' ih =>
    intro rest hX
    rw [countOcc] at hX
    have hX' : countOcc pat X' = 0 := by omega
    have hx1 : (if pat.isPrefixOf (x :: X') then 1 else 0) = 0 := by omega
    rw [List.cons_append, countOcc]
    have hfalse : pat.isPrefixOf (x :: (X' ++ '\n' :: rest)) = false := by
      cases hp : pat.isPrefixOf (x :: (X' ++ '\n' :: rest)) with
      | false => rfl
      | true =>
        rcases isPre_through_newline pat (x :: X') rest
            (by rw [List.cons_append]; exact hp) with hl | hr
        · rw [hl] at hx1; simp at hx1
        · exact absurd hr hnl
    rw [hfalse]
    simp only [Bool.false_eq_true, if_false, Nat.zero_add]
    exact ih rest hX'

theorem pyRstripL_decomp (l : List Char) : ∃ t, l = pyRstripL l ++ t := by
  obtain ⟨s, hs⟩ := dropWhile_suffix_decomp pyWsChar l.reverse
  refine ⟨s.reverse, ?_⟩
  rw [pyRstripL]
  have h2 := congrArg List.reverse hs
  rw [List.reverse_reverse, List.reverse_append] at h2
  exact h2

theorem countOcc_pyRstripL_zero {pat l : List Char} (h : countOcc pat l = 0) :
    countOcc pat (pyRstripL l) = 0 := by
  obtain ⟨t, ht⟩ := pyRstripL_decomp l
  rw [ht] at h
  exact countOcc_append_left_zero _ _ h

theorem update_eq_of_none {content : List Char} {email : String}
    (h : findSplit headingL content = none) :
    update_existing_readmeL content email =
      pyRstripL content ++ '\n' :: ((build_donation_section email).toList ++ ['\n']) := by
  simp [update_existing_readmeL, h]

theorem update_eq_of_some {content b a : List Char} {email : String}
    (h : findSplit headingL content = some (b, a)) :
    update_existing_readmeL content email =
      pyRstripL b ++ '\n' :: ((build_donation_section email).toList ++ ['\n']) := by
  simp [update_existing_readmeL, h]

theorem countOcc_update_one (content : List Char) :
    countOcc headingL (update_existing_readmeL content DEFAULT_PAYPAL) = 1 := by
  have hne : headingL ≠ [] := by decide
  have hnl : '\n' ∉ headingL := by decide
  have hdon : countOcc headingL
      ((build_donation_section DEFAULT_PAYPAL).toList ++ ['\n']) = 1 := by decide
  cases hfs : findSplit headingL content with
  | none =>
    rw [update_eq_of_none hfs]
    rw [countOcc_append_newline hne hnl _ _
      (countOcc_pyRstripL_zero (countOcc_eq_zero_of_findSplit_none hne content hfs))]
    exact hdon
  | some ba =>
    obtain ⟨b, a⟩ := ba
    rw [update_eq_of_some hfs]
    rw [countOcc_append_newline hne hnl _ _
      (countOcc_pyRstripL_zero (countOcc_before_eq_zero hne content b a hfs))]
    exact hdon

theorem push_retry_fail_trace (branch : String) (push : Nat → Bool)
    (h : ∀ i, push i = false) :
    git_push_retry branch push =
      (false, [Effect.gitRun ["push", "-u", "origin", branch], Effect.sleep 2,
               Effect.gitRun ["push", "-u", "origin", branch], Effect.sleep 4,
               Effect.gitRun ["push", "-u", "origin", branch], Effect.sleep 8,
               Effect.gitRun ["push", "-u", "origin", branch]]) := by
  simp [git_push_retry, pushTraceAux, h]

theorem push_retry_success_trace (branch : String) (push : Nat → Bool) (k : Nat)
    (hk : k < 4) (hs : push k = true) (hf : ∀ i, i < k → push i = false) :
    git_push_retry branch push =
      (true, (List.range k).flatMap
          (fun i => [Effect.gitRun ["push", "-u", "origin", branch],
                     Effect.sleep (2 ^ (i + 1))]) ++
        [Effect.gitRun ["push", "-u", "origin", branch]]) := by
  interval_cases k
  · simp [git_push_retry, pushTraceAux, hs, List.range_succ]
  · simp [git_push_retry, pushTraceAux, hs, hf 0 (by omega), List.range_succ]
  · simp [git_push_retry, pushTraceAux, hs, hf 0 (by omega), hf 1 (by omega),
      List.range_succ]
  · simp [git_push_retry, pushTraceAux, hs, hf 0 (by omega), hf 1 (by omega),
      hf 2 (by omega), List.range_succ]

theorem processProject_outcome_push (priv : Bool) (branch username : String)
    (env : PEnv) (hex : env.existsResult = .ok true) (hrd : env.readmeResult = .ok ()) :
    (processProject false priv branch username env).1 =
      (if (git_push_retry branch env.vcs.push).1 then Outcome.success
       else Outcome.failed) := by
  simp [processProject, hex, hrd, git_init_and_push]

theorem processAll_dryRun (priv : Bool) (branch username : String) :
    ∀ (envs : List PEnv) (acc : RunResults),
      processAll true priv branch username envs acc =
        { acc with success := acc.success ++
            envs.map (fun e => sanitize_repo_name e.name) } := by
  intro envs
  induction envs with
  | nil => intro acc; simp [processAll]
  | cons e rest ih =>
    intro acc
    rw [processAll]
    show processAll true priv branch username rest
      { acc with success := acc.success ++ [sanitize_repo_name e.name] } = _
    rw [ih]
    simp

theorem processAll_spec (dryRun priv : Bool) (branch username : String) :
    ∀ (envs : List PEnv) (acc : RunResults),
      (processAll dryRun priv branch username envs acc).success =
        acc.success ++ (envs.filter (fun e =>
            decide ((processProject dryRun priv branch username e).1 = Outcome.success))).map
          (fun e => sanitize_repo_name e.name) ∧
      (processAll dryRun priv branch username envs acc).failed =
        acc.failed ++ (envs.filter (fun e =>
            !decide ((processProject dryRun priv branch username e).1 = Outcome.success))).map
          (fun e => sanitize_repo_name e.name) ∧
      (processAll dryRun priv branch username envs acc).skipped = acc.skipped := by
  intro envs
  induction envs with
  | nil => intro acc; simp [processAll]
  | cons e rest ih =>
    intro acc
    rw [processAll]
    cases hout : (processProject dryRun priv branch username e).1 with
    | success =>
      simp only [hout, List.filter_cons, decide_eq_true_eq]
      obtain ⟨ih1, ih2, ih3⟩ := ih
        { acc with success := acc.success ++ [sanitize_repo_name e.name] }
      refine ⟨?_, ?_, ?_⟩
      · rw [ih1]; simp
      · rw [ih2]; simp
      · rw [ih3]
    | failed =>
      simp only [hout, List.filter_cons, decide_eq_true_eq]
      obtain ⟨ih1, ih2, ih3⟩ := ih
        { acc with failed := acc.failed ++ [sanitize_repo_name e.name] }
      refine ⟨?_, ?_, ?_⟩
      · rw [ih1]; simp
      · rw [ih2]; simp
      · rw [ih3]

theorem processAll_total (dryRun priv : Bool) (branch username : String) :
    ∀ (envs : List PEnv) (acc : RunResults),
      (processAll dryRun priv branch username envs acc).success.length +
        (processAll dryRun priv branch username envs acc).failed.length =
        acc.success.length + acc.failed.length + envs.length := by
  intro envs
  induction envs with
  | nil => intro acc; simp [processAll]
  | cons e rest ih =>
    intro acc
    rw [processAll]
    cases hout : (processProject dryRun priv branch username e).1 with
    | success =>
      simp only [hout]
      rw [ih]
      simp
      omega
    | failed =>
      simp only [hout]
      rw [ih]
      simp
      omega

/-! ### Claim theorems -/

/-- C1: for every directory tree and scan invocation, at most one
record is emitted per distinct canonical (resolved) path: the records
returned by `scan_directory` have pairwise distinct `canon` fields, and
on a tree where two traversal edges resolve to the same canonical path
only the first-reached edge yields a record. -/
theorem C1_scanner_unique_canonical_path :
    (∀ (root : RootArg) (md : Nat) (co : Bool),
        (scan_directory root md co).Pairwise (fun a b => a.canon ≠ b.canon)) ∧
    (scan_directory (.dir symTree) 3 false).map (fun r => r.path) = ["r/a"] := by
  constructor
  · intro root md co
    cases root with
    | missing => simp [scan_directory]
    | notDir => simp [scan_directory]
    | dir d =>
      exact (scanStep_inv md co (md + 2) d 0 initState
        ⟨List.Pairwise.nil, fun p hp => absurd hp (by simp [initState])⟩).1.1
  · decide

/-- C2: the traversal is bounded inclusively by `maxDepth`: a call of
`_scan` at a depth strictly beyond `maxDepth` leaves the scan state
untouched (so children of a directory at depth `maxDepth` are never
listed, marker-checked or descended into), scanning with `maxDepth = 0`
emits only a record for the root directory itself (and only when the
root carries markers), and a directory at depth exactly `maxDepth` can
still be emitted (witnessed by `depthTree` with `maxDepth = 1`). -/
theorem C2_maxDepth_inclusive :
    (∀ (md : Nat) (co : Bool) (fuel : Nat) (d : Dir) (depth : Nat) (st : ScanState),
        depth > md → scanStep md co fuel d depth st = st) ∧
    (∀ (d : Dir) (co : Bool), ∀ r ∈ scan_directory (.dir d) 0 co,
        r.path = d.path ∧ r.markers_found ≠ []) ∧
    (scan_directory (.dir depthTree) 1 false).map (fun r => r.path) = ["r/p"] := by
  refine ⟨fun md co fuel d depth st h => scanStep_deep_id md co fuel d depth st h,
    fun d co r hr => scan_md0_core d co r hr, by decide⟩

/-- Witness for C2 at concrete inputs: a call two levels below
`maxDepth = 5` is the identity on a concrete state, and the concrete
record found by a `maxDepth = 0` scan of `rootMarked` sits at the root
itself with nonempty markers. -/
theorem C2_maxDepth_inclusive_witness :
    scanStep 5 false 3 depthTree 6 initState = initState ∧
    ({ name := "top", path := "top", type := "Rust", description := "",
       is_claude := false, has_git := false, markers_found := ["Cargo.toml"],
       canon := "real/top" } : ProjectInfo).path = rootMarked.path ∧
    ({ name := "top", path := "top", type := "Rust", description := "",
       is_claude := false, has_git := false, markers_found := ["Cargo.toml"],
       canon := "real/top" } : ProjectInfo).markers_found ≠ [] := by
  refine ⟨C2_maxDepth_inclusive.1 5 false 3 depthTree 6 initState (by omega), ?_, ?_⟩
  · exact (C2_maxDepth_inclusive.2.1 rootMarked false _ (by decide)).1
  · exact (C2_maxDepth_inclusive.2.1 rootMarked false _ (by decide)).2

/-- C6 counterexample: the claim says a build-configuration line yields
"whatever follows the first `=` or `:`", which for
`description: hello tool` is the non-empty value `hello tool` and so
should win as the first non-empty source — but the source code splits
on `=` only (`line.split("=", 1)[1]` raises `IndexError` on this line,
aborting the pyproject source), so on `colonDir` the code extracts
nothing at all. -/
theorem C6_colon_line_counterexample :
    get_project_description colonDir = "" ∧
    claimConfigValue "description: hello tool" = "hello tool" ∧
    ("hello tool" : String) ≠ "" := by
  refine ⟨by decide, by decide, by decide⟩

/-- C6 (amended): description extraction tries the three sources in a
fixed order and the first producing source wins, with the empty string
as final fallback; a pyproject value (what follows the first `=`, with
a matching line lacking `=` aborting that source as a parse error) is
returned only when non-empty; a README line is returned stripped,
non-empty, and truncated to at most 200 characters. -/
theorem C6_description_priority_amended :
    ∀ d : Dir,
      (∀ s, pkgDescStep d = some s → get_project_description d = s) ∧
      (pkgDescStep d = none → ∀ s, pyprojectStep d = some s →
        get_project_description d = s) ∧
      (pkgDescStep d = none → pyprojectStep d = none →
        ∀ s, readmeStep d = some s → get_project_description d = s) ∧
      (pkgDescStep d = none → pyprojectStep d = none → readmeStep d = none →
        get_project_description d = "") ∧
      (∀ s, pyprojectStep d = some s → s ≠ "") ∧
      (∀ s, readmeStep d = some s → s ≠ "" ∧ s.length ≤ 200) := by
  intro d
  refine ⟨?_, ?_, ?_, ?_, ?_, ?_⟩
  · intro s h; simp [get_project_description, h]
  · intro h1 s h; simp [get_project_description, h1, h]
  · intro h1 h2 s h; simp [get_project_description, h1, h2, h]
  · intro h1 h2 h3; simp [get_project_description, h1, h2, h3]
  · intro s h
    rw [pyprojectStep] at h
    split at h
    · exact absurd h (by simp)
    · split at h
      · exact absurd h (by simp)
      · exact pyprojectLines_some_ne_empty _ s h
  · intro s h
    exact readmeGo_some_spec README_NAMES d.files s h

/-- Witness for C6 (amended) at concrete directories: the manifest
description of `jsonDir` wins, and `colonDir` (whose only candidate line
uses `:`) falls through every source to the empty string. -/
theorem C6_description_priority_witness :
    get_project_description jsonDir = "A tool" ∧
    get_project_description colonDir = "" := by
  constructor
  · exact (C6_description_priority_amended jsonDir).1 "A tool" (by decide)
  · exact (C6_description_priority_amended colonDir).2.2.2.1 (by decide) (by decide)
      (by decide)

/-- C4 counterexample: the claim says a present attribution section is
replaced "in place (the rest of the README content is preserved)", but
the source keeps only `parts[0]` — everything before the first heading
occurrence — so a section that follows the attribution section
(`## Usage` in `trailingContent`) is silently dropped by the update. -/
theorem C4_trailing_section_counterexample :
    countOcc "## Usage".toList trailingContent = 1 ∧
    countOcc "## Usage".toList
      (update_existing_readmeL trailingContent DEFAULT_PAYPAL) = 0 := by
  exact ⟨by decide, by decide⟩

/-- C4 (amended): the README-stamping update keeps only the content
before the first occurrence of the attribution heading (right-stripped)
and replaces everything from the heading on with the canonical section;
when the heading is absent the section is appended to the
right-stripped content.  The result always contains exactly one
attribution section, so running the step twice never duplicates it —
but content after an existing section is dropped, not preserved. -/
theorem C4_stamp_idempotent_amended :
    (∀ content : List Char,
      countOcc headingL (update_existing_readmeL content DEFAULT_PAYPAL) = 1) ∧
    (∀ content : List Char,
      countOcc headingL (update_existing_readmeL
        (update_existing_readmeL content DEFAULT_PAYPAL) DEFAULT_PAYPAL) = 1) ∧
    (∀ (content : List Char) (email : String), findSplit headingL content = none →
      update_existing_readmeL content email =
        pyRstripL content ++ '\n' :: ((build_donation_section email).toList ++ ['\n'])) ∧
    (∀ (content b a : List Char) (email : String),
      findSplit headingL content = some (b, a) →
      update_existing_readmeL content email =
        pyRstripL b ++ '\n' :: ((build_donation_section email).toList ++ ['\n'])) := by
  refine ⟨countOcc_update_one, fun content => countOcc_update_one _,
    fun content email h => update_eq_of_none h,
    fun content b a email h => update_eq_of_some h⟩

/-- Witness for C4 (amended) at concrete contents: appending to a
README without the heading, and replacing from the heading on in
`trailingContent`. -/
theorem C4_stamp_idempotent_amended_witness :
    update_existing_readmeL "# T\nbody\n".toList "gankstapony@hotmail.com" =
      pyRstripL "# T\nbody\n".toList ++ '\n' ::
        ((build_donation_section "gankstapony@hotmail.com").toList ++ ['\n']) ∧
    update_existing_readmeL trailingContent "gankstapony@hotmail.com" =
      pyRstripL "# T\n\n".toList ++ '\n' ::
        ((build_donation_section "gankstapony@hotmail.com").toList ++ ['\n']) := by
  constructor
  · exact C4_stamp_idempotent_amended.2.2.1 "# T\nbody\n".toList
      "gankstapony@hotmail.com" (by decide)
  · exact C4_stamp_idempotent_amended.2.2.2 trailingContent "# T\n\n".toList
      "\n\nold text\n\n## Usage\nrun it\n".toList "gankstapony@hotmail.com" (by decide)

/-- C5: `sanitize_repo_name` is a total, deterministic function on strings
(it is a Lean function, hence total and deterministic by construction):
it keeps alphanumerics, hyphens, underscores and dots, maps space and path
separators to hyphens, drops every other character, strips leading and
trailing hyphens and dots, collapses consecutive hyphens, and falls back
to `"unnamed-project"` when the result is empty (in particular for the
empty string and for strings of only invalid characters); it is
idempotent, and `sanitize_repo_name "My Cool App!!" = "My-Cool-App"`. -/
theorem C5_sanitize_idempotent_total :
    (∀ s : String, sanitize_repo_name (sanitize_repo_name s) = sanitize_repo_name s) ∧
    sanitize_repo_name "My Cool App!!" = "My-Cool-App" ∧
    sanitize_repo_name "" = "unnamed-project" ∧
    sanitize_repo_name "!!!" = "unnamed-project" ∧
    sanitize_repo_name "my cool/app" = "my-cool-app" := by
  refine ⟨?_, by decide, by decide, by decide, by decide⟩
  intro s
  exact congrArg String.mk (sanitizeL_idem s.toList)

/-- C3: when every push attempt fails, the retry loop of
`git_init_and_push` makes exactly 4 push attempts separated by the
strictly increasing doubling delays 2s, 4s, 8s and the project outcome
is `failed`; when the first success is attempt index `k` (the
`(k+1)`-st attempt, `k < 4`), exactly `k+1` attempts run — the trace is
`k` failed pushes each followed by its backoff sleep, then the
succeeding push — and the outcome is `success`. -/
theorem C3_push_retry_four_attempts :
    (∀ (branch : String) (push : Nat → Bool), (∀ i, push i = false) →
      git_push_retry branch push =
        (false, [Effect.gitRun ["push", "-u", "origin", branch], Effect.sleep 2,
                 Effect.gitRun ["push", "-u", "origin", branch], Effect.sleep 4,
                 Effect.gitRun ["push", "-u", "origin", branch], Effect.sleep 8,
                 Effect.gitRun ["push", "-u", "origin", branch]])) ∧
    (∀ (branch : String) (push : Nat → Bool) (k : Nat),
      k < 4 → push k = true → (∀ i, i < k → push i = false) →
      git_push_retry branch push =
        (true, (List.range k).flatMap
            (fun i => [Effect.gitRun ["push", "-u", "origin", branch],
                       Effect.sleep (2 ^ (i + 1))]) ++
          [Effect.gitRun ["push", "-u", "origin", branch]])) ∧
    (∀ (priv : Bool) (branch username : String) (env : PEnv),
      env.existsResult = .ok true → env.readmeResult = .ok () →
      (∀ i, env.vcs.push i = false) →
      (processProject false priv branch username env).1 = .failed) ∧
    (∀ (priv : Bool) (branch username : String) (env : PEnv) (k : Nat),
      k < 4 → env.vcs.push k = true → (∀ i, i < k → env.vcs.push i = false) →
      env.existsResult = .ok true → env.readmeResult = .ok () →
      (processProject false priv branch username env).1 = .success) := by
  refine ⟨push_retry_fail_trace, push_retry_success_trace, ?_, ?_⟩
  · intro priv branch username env hex hrd hfail
    rw [processProject_outcome_push priv branch username env hex hrd]
    rw [push_retry_fail_trace branch env.vcs.push hfail]
    rfl
  · intro priv branch username env k hk hs hf hex hrd
    rw [processProject_outcome_push priv branch username env hex hrd]
    rw [push_retry_success_trace branch env.vcs.push k hk hs hf]
    rfl

/-- Witness for C3 at concrete push behaviors: an always-failing push
(4 attempts, sleeps 2, 4, 8, outcome failed) and a push succeeding on
its third attempt (3 attempts, outcome success). -/
theorem C3_push_retry_four_attempts_witness :
    git_push_retry "main" pushNever =
      (false, [Effect.gitRun ["push", "-u", "origin", "main"], Effect.sleep 2,
               Effect.gitRun ["push", "-u", "origin", "main"], Effect.sleep 4,
               Effect.gitRun ["push", "-u", "origin", "main"], Effect.sleep 8,
               Effect.gitRun ["push", "-u", "origin", "main"]]) ∧
    git_push_retry "main" pushThird =
      (true, (List.range 2).flatMap
          (fun i => [Effect.gitRun ["push", "-u", "origin", "main"],
                     Effect.sleep (2 ^ (i + 1))]) ++
        [Effect.gitRun ["push", "-u", "origin", "main"]]) ∧
    (processProject false false "main" "u" envFail).1 = .failed ∧
    (processProject false false "main" "u" envThird).1 = .success := by
  refine ⟨C3_push_retry_four_attempts.1 "main" pushNever (fun i => rfl),
    C3_push_retry_four_attempts.2.1 "main" pushThird 2 (by omega) (by decide)
      (fun i hi => by interval_cases i <;> rfl),
    C3_push_retry_four_attempts.2.2.1 false "main" "u" envFail rfl rfl (fun i => rfl),
    C3_push_retry_four_attempts.2.2.2 false "main" "u" envThird 2 (by omega) (by decide)
      (fun i hi => by interval_cases i <;> rfl) rfl rfl⟩

/-- C7: in dry-run mode, processing a project performs no filesystem
mutation, no network call and no subprocess invocation (the effect
trace is empty) and always yields the `success` outcome; consequently a
whole dry run appends every project to the success list and nothing to
the skipped or failed lists. -/
theorem C7_dry_run_pure :
    (∀ (priv : Bool) (branch username : String) (env : PEnv),
      processProject true priv branch username env = (.success, [])) ∧
    (∀ (priv : Bool) (branch username : String) (envs : List PEnv) (acc : RunResults),
      processAll true priv branch username envs acc =
        { acc with success := acc.success ++
            envs.map (fun e => sanitize_repo_name e.name) }) := by
  exact ⟨fun priv branch username env => rfl, processAll_dryRun⟩

/-- C8 counterexample: a missing root (and an existing non-directory
root) makes `scan_directory` return the empty list — a normal result,
printed alongside an error message — rather than failing with an
`InvalidRootError`-style error value as the claim states. -/
theorem C8_invalid_root_counterexample :
    scan_directory RootArg.missing 3 false = [] ∧
    scan_directory RootArg.notDir 3 false = [] := ⟨rfl, rfl⟩

/-- C8 (amended): `scan_directory` reports a missing or non-directory
root by returning the empty list instead of raising; the fatal abort
lives in the orchestrator, which exits with status 1 only when the path
(and its alternative spellings) does not exist at all — a root that
exists but is not a directory flows through the scan and ends the run
as a normal "no projects found" exit. -/
theorem C8_invalid_root_amended :
    ∀ (md : Nat) (co dryRun yes conf priv : Bool) (branch : String)
      (auth : Except String String) (behav : Nat → Behav),
      scan_directory .missing md co = [] ∧
      scan_directory .notDir md co = [] ∧
      mainRun .missing md co dryRun yes conf auth priv branch behav = .fatalBadPath ∧
      mainRun .notDir md co dryRun yes conf auth priv branch behav = .noProjects :=
  fun _ _ _ _ _ _ _ _ _ => ⟨rfl, rfl, rfl, rfl⟩

/-- C9: per-project failures never abort the run.  With a valid root
and successful authentication the run always completes with a tally;
the tally lists exactly the successful projects and exactly the failed
ones (every project gets an outcome, in loop order, regardless of how
its own host or VCS steps behave, so a failure in one project never
prevents later projects from being processed); and only a missing root
path or an authentication failure ends the run without a tally. -/
theorem C9_per_project_error_scoping :
    (∀ (d : Dir) (md : Nat) (co yes conf priv : Bool) (branch username : String)
        (behav : Nat → Behav),
      scan_directory (.dir d) md co ≠ [] → (yes = true ∨ conf = true) →
      mainRun (.dir d) md co false yes conf (.ok username) priv branch behav =
        .completed (processAll false priv branch username
          (mkEnvs (scan_directory (.dir d) md co) behav) ⟨[], [], []⟩)) ∧
    (∀ (dryRun priv : Bool) (branch username : String) (envs : List PEnv)
        (acc : RunResults),
      (processAll dryRun priv branch username envs acc).success =
        acc.success ++ (envs.filter (fun e =>
            decide ((processProject dryRun priv branch username e).1 = Outcome.success))).map
          (fun e => sanitize_repo_name e.name) ∧
      (processAll dryRun priv branch username envs acc).failed =
        acc.failed ++ (envs.filter (fun e =>
            !decide ((processProject dryRun priv branch username e).1 = Outcome.success))).map
          (fun e => sanitize_repo_name e.name)) ∧
    (∀ (dryRun priv : Bool) (branch username : String) (envs : List PEnv)
        (acc : RunResults),
      (processAll dryRun priv branch username envs acc).success.length +
        (processAll dryRun priv branch username envs acc).failed.length =
        acc.success.length + acc.failed.length + envs.length) ∧
    (∀ (d : Dir) (md : Nat) (co yes conf priv : Bool) (branch e : String)
        (behav : Nat → Behav),
      scan_directory (.dir d) md co ≠ [] → (yes = true ∨ conf = true) →
      mainRun (.dir d) md co false yes conf (.error e) priv branch behav = .fatalAuth) ∧
    (∀ (md : Nat) (co dryRun yes conf priv : Bool) (branch : String)
        (auth : Except String String) (behav : Nat → Behav),
      mainRun .missing md co dryRun yes conf auth priv branch behav = .fatalBadPath) := by
  have hgate : ∀ (yes conf : Bool), (yes = true ∨ conf = true) →
      (!yes && !false && !conf) = false := by
    intro yes conf h
    rcases h with h | h <;> subst h <;> simp
  refine ⟨?_, ?_, processAll_total, ?_, fun _ _ _ _ _ _ _ _ _ => rfl⟩
  · intro d md co yes conf priv branch username behav hne hyc
    show (if (scan_directory (.dir d) md co).isEmpty then MainResult.noProjects
      else if !yes && !false && !conf then .userAborted
      else if false then _ else _) = _
    rw [if_neg (by simp [List.isEmpty_iff, hne]), hgate yes conf hyc]
    rfl
  · intro dryRun priv branch username envs acc
    exact ⟨(processAll_spec dryRun priv branch username envs acc).1,
      (processAll_spec dryRun priv branch username envs acc).2.1⟩
  · intro d md co yes conf priv branch e behav hne hyc
    show (if (scan_directory (.dir d) md co).isEmpty then MainResult.noProjects
      else if !yes && !false && !conf then .userAborted
      else if false then _ else _) = _
    rw [if_neg (by simp [List.isEmpty_iff, hne]), hgate yes conf hyc]
    rfl

/-- Witness for C9 on a concrete run: `rootMarked` scans to one
project, so with auto-confirmation and benign host behavior the run
completes with a tally, and the same run with failing authentication
aborts with the auth error. -/
theorem C9_per_project_error_scoping_witness :
    mainRun (.dir rootMarked) 3 false false true false (.ok "u") false "main" behav0 =
      .completed (processAll false false "main" "u"
        (mkEnvs (scan_directory (.dir rootMarked) 3 false) behav0) ⟨[], [], []⟩) ∧
    mainRun (.dir rootMarked) 3 false false true false (.error "boom") false "main" behav0 =
      .fatalAuth := by
  exact ⟨C9_per_project_error_scoping.1 rootMarked 3 false true false false "main" "u"
      behav0 (by decide) (Or.inl rfl),
    C9_per_project_error_scoping.2.2.2.1 rootMarked 3 false true false false "main"
      "boom" behav0 (by decide) (Or.inl rfl)⟩

/-- C10: the `Skipped` outcome is never produced — whenever a run
completes with a tally, its skipped list is empty (every processed
project ended success or failed). -/
theorem C10_skipped_never_produced :
    ∀ (root : RootArg) (md : Nat) (co dryRun yes conf : Bool)
      (auth : Except String String) (priv : Bool) (branch : String)
      (behav : Nat → Behav) (r : RunResults),
      mainRun root md co dryRun yes conf auth priv branch behav = .completed r →
      r.skipped = [] := by
  intro root md co dryRun yes conf auth priv branch behav r h
  cases root with
  | missing => exact absurd h (by simp [mainRun])
  | notDir => exact absurd h (by simp [mainRun])
  | dir d =>
    rw [mainRun.eq_def] at h
    simp only [] at h
    split at h
    · simp at h
    · split at h
      · simp at h
      · split at h
        · simp only [MainResult.completed.injEq] at h
          rw [← h]
          exact (processAll_spec true priv branch "" _ _).2.2
        · split at h
          · simp at h
          · simp only [MainResult.completed.injEq] at h
            rw [← h]
            exact (processAll_spec false priv branch _ _ _).2.2

/-- Witness for C10 on a concrete dry run of `rootMarked` whose tally
is `⟨["top"], [], []⟩`. -/
theorem C10_skipped_never_produced_witness :
    (⟨["top"], [], []⟩ : RunResults).skipped = [] := by
  exact C10_skipped_never_produced (.dir rootMarked) 3 false true true true (.ok "u")
    false "main" behav0 ⟨["top"], [], []⟩ (by decide)

end Uploader
